import Mathlib

/-!
Verification of the ingestion / retrieval pipeline of the
Autonomous-Research-Agent-with-RAG repository.

The repository ships a Next.js frontend (DocumentList, ChatInterface,
ProjectList, login page, auth store) whose code is embedded below from the
source.  The backend pipeline components (Extractor, Chunker, Embedder,
Vector Index, Ingestion Orchestrator, Retriever, Answer Composer, Citation
Linker) are described by the specification but their code is not among the
available source files, so they are modelled here directly from the
specification text; each such definition carries a doc comment saying so.
Text is modelled as List Char, machine integers as Nat, vector components
as rationals, and fallible operations return Except.
-/

/-- Modelled from the spec: a PositionedBlock is a contiguous span of
extracted text plus its location descriptor
(page_number?, paragraph_number?, start_offset, end_offset). -/
structure PositionedBlock where
  text : List Char
  page_number : Option Nat
  paragraph_number : Option Nat
  start_offset : Nat
  end_offset : Nat
deriving DecidableEq

/-- Modelled from the spec: a Chunk has a sequence index within the document
and its text content. -/
structure Chunk where
  seq_index : Nat
  text : List Char
deriving DecidableEq

/-- Modelled from the spec: the chunking stage fails with InvalidParameters
if overlap_chars is at least max_chars. -/
inductive ChunkError where
  | invalidParameters
deriving DecidableEq

/-- The trailing n characters of a list. -/
def takeLast (n : Nat) (l : List Char) : List Char :=
  l.drop (l.length - n)

/-- Modelled from the spec: the Chunker core loop (the Chunker source is not
among the available files).  It greedily accumulates blocks until adding the
next block would exceed max_chars, emits a chunk, starts the next chunk by
repeating the trailing overlap_chars characters of the previous chunk text,
and hard-splits a block that cannot fit into a fresh chunk at max_chars with
the same overlap rule.  The parameter check overlap_chars < max_chars is a
precondition of this loop (enforced by chunk below); it also bounds the
carried-over overlap and thereby guarantees termination. -/
def chunkGo (maxChars overlapChars : Nat) (hvalid : overlapChars < maxChars) :
    List (List Char) → List Char → List (List Char)
  | [], cur => if cur = [] then [] else [cur]
  | b :: rest, cur =>
    if hfit : cur.length + b.length ≤ maxChars then
      chunkGo maxChars overlapChars hvalid rest (cur ++ b)
    else if hbig : overlapChars < cur.length then
      cur :: chunkGo maxChars overlapChars hvalid (b :: rest) (takeLast overlapChars cur)
    else
      let c := cur ++ b.take (maxChars - cur.length)
      c :: chunkGo maxChars overlapChars hvalid
        (b.drop (maxChars - cur.length) :: rest) (takeLast overlapChars c)
termination_by blocks cur => (blocks.map (fun b => b.length + 1)).sum + cur.length
decreasing_by
  · simp only [List.map_cons, List.sum_cons, List.length_append]
    omega
  · simp only [takeLast, List.length_drop]
    omega
  · simp only [takeLast, List.map_cons, List.sum_cons, List.length_drop,
      List.length_append, List.length_take]
    omega

/-- Modelled from the spec: chunk(blocks, max_chars, overlap_chars) fails with
InvalidParameters if overlap_chars is at least max_chars, otherwise emits the
chunk sequence with sequence indices assigned in order. -/
def chunk (blocks : List PositionedBlock) (maxChars overlapChars : Nat) :
    Except ChunkError (List Chunk) :=
  if hvalid : overlapChars < maxChars then
    Except.ok
      (((chunkGo maxChars overlapChars hvalid (blocks.map PositionedBlock.text) []).enum).map
        (fun p => Chunk.mk p.1 p.2))
  else
    Except.error ChunkError.invalidParameters

/-- Joining a chunk text sequence back into a single text, dropping the
leading overlap repetition from every chunk after the first. -/
def overlapJoin (overlapChars : Nat) : List (List Char) → List Char
  | [] => []
  | c :: cs => c ++ (cs.map (List.drop overlapChars)).flatten

theorem chunkGo_head_extends (maxChars overlapChars : Nat) (hvalid : overlapChars < maxChars)
    (blocks : List (List Char)) (cur : List Char) (c : List Char) (cs : List (List Char))
    (h : chunkGo maxChars overlapChars hvalid blocks cur = c :: cs) :
    ∃ t, c = cur ++ t := by
  induction blocks, cur using chunkGo.induct maxChars overlapChars hvalid generalizing c cs with
  | case1 =>
    rw [chunkGo] at h
    simp at h
  | case2 cur hcur =>
    rw [chunkGo] at h
    rw [if_neg hcur] at h
    exact ⟨[], by simpa using (List.cons.injEq _ _ _ _ ▸ h).1.symm⟩
  | case3 b rest cur hfit ih =>
    rw [chunkGo, dif_pos hfit] at h
    obtain ⟨t, ht⟩ := ih c cs h
    exact ⟨b ++ t, by simp [ht]⟩
  | case4 b rest cur hfit hbig ih =>
    rw [chunkGo, dif_neg hfit, dif_pos hbig] at h
    exact ⟨[], by simpa using ((List.cons.injEq _ _ _ _).mp h).1.symm⟩
  | case5 b rest cur hfit hbig c ih =>
    rw [chunkGo, dif_neg hfit, dif_neg hbig] at h
    exact ⟨List.take (maxChars - cur.length) b,
      ((List.cons.injEq _ _ _ _).mp h).1.symm⟩

theorem chunkGo_ne_nil (maxChars overlapChars : Nat) (hvalid : overlapChars < maxChars)
    (blocks : List (List Char)) (cur : List Char)
    (h : cur ≠ [] ∨ ∃ b ∈ blocks, b ≠ []) :
    chunkGo maxChars overlapChars hvalid blocks cur ≠ [] := by
  induction blocks, cur using chunkGo.induct maxChars overlapChars hvalid with
  | case1 =>
    simp at h
  | case2 cur hcur =>
    rw [chunkGo, if_neg hcur]
    simp
  | case3 b rest cur hfit ih =>
    rw [chunkGo, dif_pos hfit]
    apply ih
    rcases h with hc | ⟨x, hx, hxne⟩
    · exact Or.inl (by simp [hc])
    · rcases List.mem_cons.mp hx with rfl | hxr
      · exact Or.inl (by simp [hxne])
      · exact Or.inr ⟨x, hxr, hxne⟩
  | case4 b rest cur hfit hbig ih =>
    rw [chunkGo, dif_neg hfit, dif_pos hbig]
    simp
  | case5 b rest cur hfit hbig c ih =>
    rw [chunkGo, dif_neg hfit, dif_neg hbig]
    simp

theorem takeLast_length_of_le (n : Nat) (l : List Char) (h : n ≤ l.length) :
    (takeLast n l).length = n := by
  simp [takeLast]
  omega

theorem chunkGo_overlapJoin (maxChars overlapChars : Nat) (hvalid : overlapChars < maxChars)
    (blocks : List (List Char)) (cur : List Char) (hcur : cur.length ≤ maxChars) :
    overlapJoin overlapChars (chunkGo maxChars overlapChars hvalid blocks cur) =
      cur ++ blocks.flatten := by
  induction blocks, cur using chunkGo.induct maxChars overlapChars hvalid with
  | case1 =>
    rw [chunkGo]
    simp [overlapJoin]
  | case2 cur hcur2 =>
    rw [chunkGo, if_neg hcur2]
    simp [overlapJoin]
  | case3 b rest cur hfit ih =>
    rw [chunkGo, dif_pos hfit]
    rw [ih (by rw [List.length_append]; omega)]
    simp
  | case4 b rest cur hfit hbig ih =>
    rw [chunkGo, dif_neg hfit, dif_pos hbig]
    have hb : b ≠ [] := by
      intro hb0
      rw [hb0] at hfit
      simp at hfit
      omega
    have hcarrylen : (takeLast overlapChars cur).length = overlapChars :=
      takeLast_length_of_le _ _ (by omega)
    have hrecne := chunkGo_ne_nil maxChars overlapChars hvalid (b :: rest)
      (takeLast overlapChars cur) (Or.inr ⟨b, List.mem_cons_self b rest, hb⟩)
    obtain ⟨r0, rtail, hrec⟩ := List.exists_cons_of_ne_nil hrecne
    obtain ⟨t, ht⟩ := chunkGo_head_extends maxChars overlapChars hvalid (b :: rest)
      (takeLast overlapChars cur) r0 rtail hrec
    have ihr := ih (by rw [hcarrylen]; omega)
    rw [hrec] at ihr
    rw [hrec]
    simp only [overlapJoin, List.map_cons, List.flatten_cons] at ihr ⊢
    rw [ht] at ihr ⊢
    rw [List.drop_left' hcarrylen]
    rw [List.append_assoc] at ihr
    have := List.append_cancel_left ihr
    rw [this]
  | case5 b rest cur hfit hbig c ih =>
    rw [chunkGo, dif_neg hfit, dif_neg hbig]
    show overlapJoin overlapChars
        ((cur ++ b.take (maxChars - cur.length)) ::
          chunkGo maxChars overlapChars hvalid (b.drop (maxChars - cur.length) :: rest)
            (takeLast overlapChars (cur ++ b.take (maxChars - cur.length)))) =
      cur ++ (b :: rest).flatten
    have ihx : (takeLast overlapChars (cur ++ b.take (maxChars - cur.length))).length ≤ maxChars →
        overlapJoin overlapChars
            (chunkGo maxChars overlapChars hvalid (b.drop (maxChars - cur.length) :: rest)
              (takeLast overlapChars (cur ++ b.take (maxChars - cur.length)))) =
          takeLast overlapChars (cur ++ b.take (maxChars - cur.length)) ++
            (b.drop (maxChars - cur.length) :: rest).flatten := ih
    have htk : maxChars - cur.length ≤ b.length := by omega
    have hclen : (cur ++ b.take (maxChars - cur.length)).length = maxChars := by
      simp [List.length_take]
      omega
    have hbdrop : b.drop (maxChars - cur.length) ≠ [] := by
      apply List.ne_nil_of_length_pos
      simp [List.length_drop]
      omega
    have hcarrylen :
        (takeLast overlapChars (cur ++ b.take (maxChars - cur.length))).length = overlapChars := by
      apply takeLast_length_of_le
      rw [hclen]
      omega
    have hrecne := chunkGo_ne_nil maxChars overlapChars hvalid
      (b.drop (maxChars - cur.length) :: rest)
      (takeLast overlapChars (cur ++ b.take (maxChars - cur.length)))
      (Or.inr ⟨b.drop (maxChars - cur.length),
        List.mem_cons_self _ _, hbdrop⟩)
    obtain ⟨r0, rtail, hrec⟩ := List.exists_cons_of_ne_nil hrecne
    obtain ⟨t, ht⟩ := chunkGo_head_extends maxChars overlapChars hvalid _ _ r0 rtail hrec
    have ihr := ihx (by rw [hcarrylen]; omega)
    rw [hrec] at ihr
    rw [hrec]
    simp only [overlapJoin, List.map_cons, List.flatten_cons] at ihr ⊢
    rw [ht] at ihr ⊢
    rw [List.drop_left' hcarrylen]
    rw [List.append_assoc] at ihr
    have hcancel := List.append_cancel_left ihr
    rw [List.append_assoc, hcancel]
    rw [← List.append_assoc (List.take (maxChars - cur.length) b)]
    rw [List.take_append_drop]

theorem chunkGo_chain (maxChars overlapChars : Nat) (hvalid : overlapChars < maxChars)
    (blocks : List (List Char)) (cur : List Char) :
    List.Chain' (fun a b => b.take overlapChars = takeLast overlapChars a)
      (chunkGo maxChars overlapChars hvalid blocks cur) := by
  induction blocks, cur using chunkGo.induct maxChars overlapChars hvalid with
  | case1 =>
    rw [chunkGo]
    simp
  | case2 cur hcur2 =>
    rw [chunkGo, if_neg hcur2]
    simp
  | case3 b rest cur hfit ih =>
    rw [chunkGo, dif_pos hfit]
    exact ih
  | case4 b rest cur hfit hbig ih =>
    rw [chunkGo, dif_neg hfit, dif_pos hbig]
    apply ih.cons'
    intro y hy
    rcases hh : chunkGo maxChars overlapChars hvalid (b :: rest) (takeLast overlapChars cur) with
      _ | ⟨r0, rtail⟩
    · rw [hh] at hy
      simp at hy
    · rw [hh] at hy
      simp at hy
      subst hy
      obtain ⟨t, ht⟩ := chunkGo_head_extends maxChars overlapChars hvalid _ _ r0 rtail hh
      have hcarrylen : (takeLast overlapChars cur).length = overlapChars :=
        takeLast_length_of_le _ _ (by omega)
      rw [ht, List.take_left' hcarrylen]
  | case5 b rest cur hfit hbig c ih =>
    rw [chunkGo, dif_neg hfit, dif_neg hbig]
    show List.Chain' (fun a b => b.take overlapChars = takeLast overlapChars a)
      ((cur ++ b.take (maxChars - cur.length)) ::
        chunkGo maxChars overlapChars hvalid (b.drop (maxChars - cur.length) :: rest)
          (takeLast overlapChars (cur ++ b.take (maxChars - cur.length))))
    have ihx : List.Chain' (fun a b => b.take overlapChars = takeLast overlapChars a)
        (chunkGo maxChars overlapChars hvalid (b.drop (maxChars - cur.length) :: rest)
          (takeLast overlapChars (cur ++ b.take (maxChars - cur.length)))) := ih
    apply ihx.cons'
    intro y hy
    have hclen : (cur ++ b.take (maxChars - cur.length)).length = maxChars := by
      simp [List.length_take]
      omega
    rcases hh : chunkGo maxChars overlapChars hvalid
        (b.drop (maxChars - cur.length) :: rest)
        (takeLast overlapChars (cur ++ b.take (maxChars - cur.length))) with
      _ | ⟨r0, rtail⟩
    · rw [hh] at hy
      simp at hy
    · rw [hh] at hy
      simp at hy
      subst hy
      obtain ⟨t, ht⟩ := chunkGo_head_extends maxChars overlapChars hvalid _ _ r0 rtail hh
      have hcarrylen :
          (takeLast overlapChars (cur ++ b.take (maxChars - cur.length))).length =
            overlapChars := by
        apply takeLast_length_of_le
        rw [hclen]
        omega
      rw [ht, List.take_left' hcarrylen]

theorem enum_mk_texts (l : List (List Char)) :
    ((l.enum.map (fun p => Chunk.mk p.1 p.2)).map Chunk.text) = l := by
  rw [List.map_map]
  have hcomp : (Chunk.text ∘ fun p : Nat × List Char => Chunk.mk p.1 p.2) = Prod.snd := rfl
  rw [hcomp, List.enum_map_snd]

/-- C1: for every document and every valid parameter pair
(overlap_chars < max_chars), chunking succeeds, the chunk texts joined with
the leading overlap of every non-initial chunk removed reconstruct the full
extracted text of the blocks with no gaps, and every overlap region (the
trailing overlap_chars characters of a chunk) is repeated exactly as the
leading overlap_chars characters of the next chunk, so it appears in the two
consecutive chunks. -/
theorem chunk_reconstructs_text (blocks : List PositionedBlock) (maxChars overlapChars : Nat)
    (hvalid : overlapChars < maxChars) :
    ∃ chunks, chunk blocks maxChars overlapChars = Except.ok chunks ∧
      overlapJoin overlapChars (chunks.map Chunk.text) =
        (blocks.map PositionedBlock.text).flatten ∧
      List.Chain' (fun a b => b.text.take overlapChars = takeLast overlapChars a.text) chunks := by
  refine ⟨((chunkGo maxChars overlapChars hvalid (blocks.map PositionedBlock.text) []).enum).map
    (fun p => Chunk.mk p.1 p.2), ?_, ?_, ?_⟩
  · rw [chunk, dif_pos hvalid]
  · rw [enum_mk_texts]
    have := chunkGo_overlapJoin maxChars overlapChars hvalid
      (blocks.map PositionedBlock.text) [] (by simp)
    simpa using this
  · have hchain := chunkGo_chain maxChars overlapChars hvalid (blocks.map PositionedBlock.text) []
    rw [← enum_mk_texts (chunkGo maxChars overlapChars hvalid (blocks.map PositionedBlock.text) [])]
      at hchain
    exact (List.chain'_map Chunk.text).mp hchain

/-- A concrete block used to witness the chunking theorems. -/
def demoBlock : PositionedBlock :=
  PositionedBlock.mk (['a','b','c','d','e','f','g','h']) (some 1) (some 1) 0 8

/-- Witness for C1 at a concrete document and parameters. -/
theorem chunk_reconstructs_text_witness :
    ∃ chunks, chunk [demoBlock] 5 2 = Except.ok chunks ∧
      overlapJoin 2 (chunks.map Chunk.text) =
        ([demoBlock].map PositionedBlock.text).flatten ∧
      List.Chain' (fun a b => b.text.take 2 = takeLast 2 a.text) chunks :=
  chunk_reconstructs_text [demoBlock] 5 2 (by decide)

/-- C2: the Chunker is deterministic; two runs of chunk on identical block
sequences and identical parameters yield identical chunk sequences. -/
theorem chunk_deterministic (blocks1 blocks2 : List PositionedBlock)
    (max1 max2 overlap1 overlap2 : Nat)
    (hb : blocks1 = blocks2) (hm : max1 = max2) (ho : overlap1 = overlap2) :
    chunk blocks1 max1 overlap1 = chunk blocks2 max2 overlap2 := by
  subst hb
  subst hm
  subst ho
  rfl

/-- Witness for C2 at a concrete pair of identical runs. -/
theorem chunk_deterministic_witness :
    chunk [demoBlock] 5 2 = chunk [demoBlock] 5 2 :=
  chunk_deterministic [demoBlock] [demoBlock] 5 5 2 2 rfl rfl rfl

/-- C3: chunk fails with InvalidParameters exactly when
overlap_chars is at least max_chars, and succeeds (returns ok) whenever
overlap_chars < max_chars. -/
theorem chunk_invalid_params_iff (blocks : List PositionedBlock) (maxChars overlapChars : Nat) :
    (chunk blocks maxChars overlapChars = Except.error ChunkError.invalidParameters ↔
      maxChars ≤ overlapChars) ∧
    (maxChars ≤ overlapChars ∨ ∃ cs, chunk blocks maxChars overlapChars = Except.ok cs) := by
  by_cases hvalid : overlapChars < maxChars
  · refine ⟨⟨fun h => ?_, fun h => ?_⟩, Or.inr ⟨_, by rw [chunk, dif_pos hvalid]⟩⟩
    · rw [chunk, dif_pos hvalid] at h
      exact absurd h (by simp)
    · omega
  · refine ⟨⟨fun _ => by omega, fun _ => ?_⟩, Or.inl (by omega)⟩
    rw [chunk, dif_neg hvalid]

/-- Modelled from the spec: a Vector Index entry: (vector, chunk-id, metadata)
scoped to a collection; the metadata keeps the chunk sequence index used for
tie-breaking. -/
structure IndexEntry where
  collection_id : Nat
  chunk_id : Nat
  seq_index : Nat
  vector : List Rat
deriving DecidableEq

/-- Dot product of two vectors (componentwise, truncated at the shorter). -/
def dotProduct : List Rat → List Rat → Rat
  | [], _ => 0
  | _, [] => 0
  | a :: moreA, b :: moreB => a * b + dotProduct moreA moreB

/-- Modelled from the spec: similarity score of an entry against a query
vector.  The spec asks for cosine similarity or an equivalent monotonic
measure; for normalized embedding vectors the dot product is the cosine
similarity, and it keeps the model exact over the rationals. -/
def simScore (qv : List Rat) (e : IndexEntry) : Rat := dotProduct e.vector qv

/-- Modelled from the spec: the ranking order of query results: higher
similarity first, ties broken by chunk sequence index ascending. -/
def rankedBefore (qv : List Rat) (a b : IndexEntry) : Prop :=
  simScore qv b < simScore qv a ∨
    (simScore qv a = simScore qv b ∧ a.seq_index ≤ b.seq_index)

instance (qv : List Rat) : DecidableRel (rankedBefore qv) := fun a b => by
  unfold rankedBefore
  infer_instance

instance (qv : List Rat) : IsTotal IndexEntry (rankedBefore qv) := ⟨by
  intro a b
  rcases lt_trichotomy (simScore qv a) (simScore qv b) with h | h | h
  · exact Or.inr (Or.inl h)
  · rcases Nat.le_total a.seq_index b.seq_index with hs | hs
    · exact Or.inl (Or.inr ⟨h, hs⟩)
    · exact Or.inr (Or.inr ⟨h.symm, hs⟩)
  · exact Or.inl (Or.inl h)⟩

instance (qv : List Rat) : IsTrans IndexEntry (rankedBefore qv) := ⟨by
  intro a b c hab hbc
  rcases hab with hab | ⟨hab, sab⟩
  · rcases hbc with hbc | ⟨hbc, sbc⟩
    · exact Or.inl (lt_trans hbc hab)
    · exact Or.inl (hbc ▸ hab)
  · rcases hbc with hbc | ⟨hbc, sbc⟩
    · exact Or.inl (hab ▸ hbc)
    · exact Or.inr ⟨hab.trans hbc, le_trans sab sbc⟩⟩

/-- Modelled from the spec: the entries of one collection, ranked. -/
def rankedEntries (store : List IndexEntry) (cid : Nat) (qv : List Rat) :
    List IndexEntry :=
  List.insertionSort (rankedBefore qv) (store.filter (fun e => e.collection_id == cid))

/-- Modelled from the spec: query(collection_id, query_vector, k) returns the
ranked list of (chunk_id, score) pairs of the collection, truncated to the
top k. -/
def query (store : List IndexEntry) (cid : Nat) (qv : List Rat) (k : Nat) :
    List (Nat × Rat) :=
  ((rankedEntries store cid qv).take k).map (fun e => (e.chunk_id, simScore qv e))

/-- C4: query returns at most k results, every returned chunk belongs to an
entry of the queried collection, and the results are the projection of an
entry list sorted by descending similarity with ties broken by chunk
sequence index ascending. -/
theorem query_bounded_scoped_ranked (store : List IndexEntry) (cid : Nat) (qv : List Rat)
    (k : Nat) :
    (query store cid qv k).length ≤ k ∧
    (∀ p ∈ query store cid qv k,
      ∃ e ∈ store, e.collection_id = cid ∧ p.1 = e.chunk_id ∧ p.2 = simScore qv e) ∧
    List.Sorted (rankedBefore qv) ((rankedEntries store cid qv).take k) ∧
    query store cid qv k =
      ((rankedEntries store cid qv).take k).map (fun e => (e.chunk_id, simScore qv e)) := by
  refine ⟨?_, ?_, ?_, rfl⟩
  · simp [query]
  · intro p hp
    simp only [query, List.mem_map] at hp
    obtain ⟨e, he, hpe⟩ := hp
    have he2 : e ∈ rankedEntries store cid qv := List.take_subset k _ he
    have he3 : e ∈ store.filter (fun e => e.collection_id == cid) :=
      ((List.perm_insertionSort (rankedBefore qv) _).mem_iff).mp he2
    obtain ⟨hes, hec⟩ := List.mem_filter.mp he3
    exact ⟨e, hes, by simpa using hec, by rw [← hpe], by rw [← hpe]⟩
  · exact List.Pairwise.sublist (List.take_sublist k _)
      (List.sorted_insertionSort (rankedBefore qv) _)

/-- Modelled from the spec: one retrieved evidence item handed to the Answer
Composer and the Citation Linker: the underlying chunk text plus the document
identity and location of the chunk. -/
structure EvidenceItem where
  document_id : Nat
  page_number : Option Nat
  paragraph_number : Option Nat
  chunk_text : List Char
deriving DecidableEq

/-- Modelled from the spec: the resolved, user-facing citation
(source_num, document identity, page_number?, paragraph_number?, snippet). -/
structure Citation where
  source_num : Nat
  document_id : Nat
  page_number : Option Nat
  paragraph_number : Option Nat
  snippet : List Char
deriving DecidableEq

/-- Modelled from the spec: the fixed snippet preview length (the frontend
displays 150 characters of each snippet). -/
def previewLength : Nat := 150

/-- Modelled from the spec: resolving one marker number against its evidence
item yields a Citation whose source_num is the marker number and whose
snippet is the chunk text truncated to the preview length. -/
def mkCitation (m : Nat) (e : EvidenceItem) : Citation :=
  Citation.mk m e.document_id e.page_number e.paragraph_number
    (e.chunk_text.take previewLength)

/-- Modelled from the spec: the Citation Linker loop over the parsed markers
in their order of appearance in the answer text.  A marker is resolved when
it lies in the valid evidence range 1..length and its evidence item has not
been cited yet; later markers for an already cited item are collapsed away,
keeping the first occurrence. -/
def linkGo (evidence : List EvidenceItem) (seen : List Nat) : List Nat → List Citation
  | [] => []
  | m :: ms =>
    if h : (1 ≤ m ∧ m ≤ evidence.length) ∧ ¬ m ∈ seen then
      mkCitation m (evidence.get ⟨m - 1, by omega⟩) :: linkGo evidence (m :: seen) ms
    else
      linkGo evidence seen ms

/-- Modelled from the spec: link(markers, retrieval result) resolves each
valid marker, in order of first appearance in the answer text. -/
def link (markers : List Nat) (evidence : List EvidenceItem) : List Citation :=
  linkGo evidence [] markers

/-- The subsequence of first occurrences of a list of numbers, in order. -/
def firstOccurrences : List Nat → List Nat
  | [] => []
  | a :: l => a :: firstOccurrences (l.filter (fun x => x != a))
termination_by l => l.length
decreasing_by
  simp only [List.length_cons]
  exact Nat.lt_succ_of_le (List.length_filter_le _ _)

theorem linkGo_sources (evidence : List EvidenceItem) (ms : List Nat) : ∀ seen : List Nat,
    (linkGo evidence seen ms).map Citation.source_num =
      firstOccurrences (ms.filter
        (fun m => decide (1 ≤ m) && decide (m ≤ evidence.length) && !(decide (m ∈ seen)))) := by
  induction ms with
  | nil =>
    intro seen
    rw [linkGo, List.filter_nil, firstOccurrences]
    rfl
  | cons m ms ih =>
    intro seen
    by_cases h : (1 ≤ m ∧ m ≤ evidence.length) ∧ ¬ m ∈ seen
    · rw [linkGo, dif_pos h]
      rw [List.filter_cons]
      rw [if_pos (by simp [h.1.1, h.1.2, h.2])]
      rw [firstOccurrences]
      rw [List.map_cons]
      have hsrc : (mkCitation m (evidence.get ⟨m - 1, by omega⟩)).source_num = m := rfl
      rw [hsrc]
      congr 1
      rw [ih (m :: seen)]
      congr 1
      rw [List.filter_filter]
      apply List.filter_congr
      intro x hx
      by_cases h1 : 1 ≤ x <;> by_cases h2 : x ≤ evidence.length <;>
        by_cases h3 : x = m <;> by_cases h4 : x ∈ seen <;>
        simp [h1, h2, h3, h4]
    · rw [linkGo, dif_neg h]
      rw [List.filter_cons]
      rw [if_neg (by simp; intro hm1 hm2; simpa using fun hc => h ⟨⟨hm1, hm2⟩, hc⟩)]
      exact ih seen

theorem firstOccurrences_subset (l : List Nat) : ∀ x, x ∈ firstOccurrences l → x ∈ l := by
  induction l using firstOccurrences.induct with
  | case1 =>
    intro x h
    exact absurd h (by simp [firstOccurrences])
  | case2 a l ih =>
    intro x h
    rw [firstOccurrences] at h
    rcases List.mem_cons.mp h with rfl | h2
    · exact List.mem_cons_self _ _
    · exact List.mem_cons_of_mem _ (List.mem_filter.mp (ih x h2)).1

theorem firstOccurrences_nodup (l : List Nat) : (firstOccurrences l).Nodup := by
  induction l using firstOccurrences.induct with
  | case1 =>
    simp [firstOccurrences]
  | case2 a l ih =>
    rw [firstOccurrences]
    refine List.nodup_cons.mpr ⟨?_, ih⟩
    intro hmem
    have h1 := firstOccurrences_subset _ _ hmem
    have h2 := (List.mem_filter.mp h1).2
    simp at h2

/-- C5: the source numbers of the Citations produced by link are exactly the
first occurrences, in order of appearance in the answer text, of the valid
markers (each duplicate marker collapses to the citation created at its
first occurrence), and they contain no duplicates. -/
theorem link_first_appearance_nodup (markers : List Nat) (evidence : List EvidenceItem) :
    (link markers evidence).map Citation.source_num =
      firstOccurrences (markers.filter
        (fun m => decide (1 ≤ m) && decide (m ≤ evidence.length))) ∧
    ((link markers evidence).map Citation.source_num).Nodup := by
  have h := linkGo_sources evidence markers []
  constructor
  · rw [link, h]
    congr 1
    apply List.filter_congr
    intro x hx
    simp
  · rw [link, h]
    exact firstOccurrences_nodup _

/-- The Document lifecycle status, as in the spec data model and as handled
by getStatusColor in the DocumentList component. -/
inductive DocStatus where
  | pending
  | processing
  | indexed
  | failed
deriving DecidableEq

/-- Modelled from the spec: the ingestion error taxonomy of section 7 that
can end an ingestion run. -/
inductive IngestError where
  | unsupportedFormat
  | extractionError
  | invalidParameters
  | embeddingUnavailable
  | dimensionMismatch
  | timeout
deriving DecidableEq

/-- Modelled from the spec: one chunk entry written to the Vector Index for a
document during ingestion. -/
structure ChunkRecord where
  document_id : Nat
  seq_index : Nat
  text : List Char
deriving DecidableEq

/-- Modelled from the spec: the state an ingestion run acts on: the Document
status and the indexed chunk entries. -/
structure PipelineState where
  status : DocStatus
  index : List ChunkRecord
deriving DecidableEq

/-- Modelled from the spec: delete(collection, document) removes all chunk
entries belonging to a document. -/
def deleteDoc (docId : Nat) (idx : List ChunkRecord) : List ChunkRecord :=
  idx.filter (fun c => c.document_id != docId)

/-- The chunk entries of one document currently in the index. -/
def entriesFor (docId : Nat) (idx : List ChunkRecord) : List ChunkRecord :=
  idx.filter (fun c => c.document_id == docId)

/-- The index entries a chunk list produces for a document. -/
def chunkRecords (docId : Nat) (chunks : List Chunk) : List ChunkRecord :=
  chunks.map (fun c => ChunkRecord.mk docId c.seq_index c.text)

/-- Modelled from the spec: one ingestion run of the Orchestrator (its source
is not among the available files).  The Document moves pending to processing
before any work; prior chunks of the document are deleted before re-running
the pipeline; stages run sequentially (extract, chunk, embed, upsert); the
external stage outcomes are inputs (the extractor result, the embedding
provider, and the point at which the upsert stage fails, if any).  On any
stage failure the status becomes failed and partially written chunk entries
of the document are deleted; on success the status becomes indexed and the
chunk entries are written. -/
def runIngestion (docId : Nat)
    (extractResult : Except IngestError (List PositionedBlock))
    (maxChars overlapChars : Nat)
    (embed : List (List Char) → Except IngestError (List (List Rat)))
    (upsertFailAt : Option Nat)
    (st : PipelineState) : PipelineState :=
  let base := deleteDoc docId st.index
  match extractResult with
  | Except.error _ => PipelineState.mk DocStatus.failed base
  | Except.ok blocks =>
    match chunk blocks maxChars overlapChars with
    | Except.error _ => PipelineState.mk DocStatus.failed base
    | Except.ok chunks =>
      match embed (chunks.map Chunk.text) with
      | Except.error _ => PipelineState.mk DocStatus.failed base
      | Except.ok _ =>
        match upsertFailAt with
        | some j =>
          PipelineState.mk DocStatus.failed
            (deleteDoc docId (base ++ (chunkRecords docId chunks).take j))
        | none =>
          PipelineState.mk DocStatus.indexed (base ++ chunkRecords docId chunks)

theorem entriesFor_deleteDoc (d : Nat) (idx : List ChunkRecord) :
    entriesFor d (deleteDoc d idx) = [] := by
  rw [entriesFor, deleteDoc, List.filter_filter]
  apply List.filter_eq_nil_iff.mpr
  intro c hc
  simp

theorem deleteDoc_eq_self (d : Nat) (idx : List ChunkRecord)
    (h : entriesFor d idx = []) : deleteDoc d idx = idx := by
  apply List.filter_eq_self.mpr
  intro c hc
  have := List.filter_eq_nil_iff.mp h c hc
  simpa using this

theorem runIngestion_status_cases (docId : Nat)
    (extractResult : Except IngestError (List PositionedBlock))
    (maxChars overlapChars : Nat)
    (embed : List (List Char) → Except IngestError (List (List Rat)))
    (upsertFailAt : Option Nat) (st : PipelineState) :
    (runIngestion docId extractResult maxChars overlapChars embed upsertFailAt st).status =
        DocStatus.indexed ∨
      (runIngestion docId extractResult maxChars overlapChars embed upsertFailAt st).status =
        DocStatus.failed := by
  rw [runIngestion.eq_def]
  rcases extractResult with e | blocks
  · exact Or.inr rfl
  · simp only
    rcases chunk blocks maxChars overlapChars with e | chunks
    · exact Or.inr rfl
    · simp only
      rcases embed (chunks.map Chunk.text) with e | vecs
      · exact Or.inr rfl
      · simp only
        rcases upsertFailAt with _ | j
        · exact Or.inl rfl
        · exact Or.inr rfl

/-- Every chunk entry generated for a document carries that document id, so
deleting the document removes all of them. -/
theorem deleteDoc_chunkRecords_take (d : Nat) (cs : List Chunk) (j : Nat) :
    deleteDoc d ((chunkRecords d cs).take j) = [] := by
  apply List.filter_eq_nil_iff.mpr
  intro c hc
  have hc2 := List.take_subset j _ hc
  obtain ⟨ck, hck, rfl⟩ := List.mem_map.mp hc2
  simp

theorem deleteDoc_chunkRecords (d : Nat) (cs : List Chunk) :
    deleteDoc d (chunkRecords d cs) = [] := by
  have h := deleteDoc_chunkRecords_take d cs (chunkRecords d cs).length
  rwa [List.take_length] at h

theorem entriesFor_chunkRecords (d : Nat) (cs : List Chunk) :
    entriesFor d (chunkRecords d cs) = chunkRecords d cs := by
  apply List.filter_eq_self.mpr
  intro c hc
  obtain ⟨ck, hck, rfl⟩ := List.mem_map.mp hc
  simp

/-- Counterexample to C6 as stated: a failing re-ingestion of an
already-indexed document does not leave the Vector Index state for the
document as if the run had never started: the prior chunk entries are
deleted before the pipeline re-runs (spec section 4.5) and a failed run
does not restore them, so the final index differs from the pre-run index. -/
theorem ingestion_prior_chunks_not_restored :
    (runIngestion 7 (Except.error IngestError.extractionError) 5 2
        (fun _ => Except.error IngestError.embeddingUnavailable) none
        (PipelineState.mk DocStatus.indexed [ChunkRecord.mk 7 0 (['x'])])).status =
      DocStatus.failed ∧
    ¬ (runIngestion 7 (Except.error IngestError.extractionError) 5 2
        (fun _ => Except.error IngestError.embeddingUnavailable) none
        (PipelineState.mk DocStatus.indexed [ChunkRecord.mk 7 0 (['x'])])).index =
      (PipelineState.mk DocStatus.indexed [ChunkRecord.mk 7 0 (['x'])]).index := by
  decide

/-- C6 (amended): ingestion is all-or-nothing per document: every run that
does not reach indexed ends with status failed and leaves no chunk entries
of the document in the index; and whenever the document had no previously
indexed entries, the index is exactly as if the run had never started.  For
a document that did have prior entries a failed re-ingestion cannot restore
them (see the counterexample above), so the as-if-never-started conclusion
holds conditionally. -/
theorem ingestion_all_or_nothing (docId : Nat)
    (extractResult : Except IngestError (List PositionedBlock))
    (maxChars overlapChars : Nat)
    (embed : List (List Char) → Except IngestError (List (List Rat)))
    (upsertFailAt : Option Nat) (st : PipelineState)
    (hfail : (runIngestion docId extractResult maxChars overlapChars embed upsertFailAt st).status ≠
      DocStatus.indexed) :
    (runIngestion docId extractResult maxChars overlapChars embed upsertFailAt st).status =
        DocStatus.failed ∧
    entriesFor docId
        (runIngestion docId extractResult maxChars overlapChars embed upsertFailAt st).index =
      [] ∧
    (entriesFor docId st.index = [] →
      (runIngestion docId extractResult maxChars overlapChars embed upsertFailAt st).index =
        st.index) := by
  rw [runIngestion.eq_def] at hfail ⊢
  rcases extractResult with e | blocks
  · exact ⟨by simp, entriesFor_deleteDoc _ _, fun hcl => deleteDoc_eq_self _ _ hcl⟩
  · simp only at hfail ⊢
    rcases hc : chunk blocks maxChars overlapChars with e | chunks <;>
      simp only [hc] at hfail ⊢
    · exact ⟨by simp, entriesFor_deleteDoc _ _, fun hcl => deleteDoc_eq_self _ _ hcl⟩
    · rcases he : embed (chunks.map Chunk.text) with e | vecs <;>
        simp only [he] at hfail ⊢
      · exact ⟨by simp, entriesFor_deleteDoc _ _, fun hcl => deleteDoc_eq_self _ _ hcl⟩
      · rcases upsertFailAt with _ | j <;> simp only at hfail ⊢
        · exact absurd rfl hfail
        · refine ⟨by simp, entriesFor_deleteDoc _ _, ?_⟩
          intro hcl
          have hbase : deleteDoc docId st.index = st.index := deleteDoc_eq_self _ _ hcl
          rw [hbase, deleteDoc, List.filter_append, ← deleteDoc, ← deleteDoc, hbase,
            deleteDoc_chunkRecords_take, List.append_nil]

/-- Witness for C6 (amended): a run whose extraction fails with
UnsupportedFormat on a document with no prior chunks ends failed with an
untouched empty index. -/
theorem ingestion_all_or_nothing_witness :
    (runIngestion 7 (Except.error IngestError.unsupportedFormat) 5 2
        (fun _ => Except.error IngestError.embeddingUnavailable) none
        (PipelineState.mk DocStatus.pending [])).status = DocStatus.failed ∧
    entriesFor 7
        (runIngestion 7 (Except.error IngestError.unsupportedFormat) 5 2
          (fun _ => Except.error IngestError.embeddingUnavailable) none
          (PipelineState.mk DocStatus.pending [])).index = [] ∧
    (entriesFor 7 (PipelineState.mk DocStatus.pending []).index = [] →
      (runIngestion 7 (Except.error IngestError.unsupportedFormat) 5 2
          (fun _ => Except.error IngestError.embeddingUnavailable) none
          (PipelineState.mk DocStatus.pending [])).index =
        (PipelineState.mk DocStatus.pending []).index) :=
  ingestion_all_or_nothing 7 (Except.error IngestError.unsupportedFormat) 5 2
    (fun _ => Except.error IngestError.embeddingUnavailable) none
    (PipelineState.mk DocStatus.pending []) (by decide)

/-- The allowed Document status transitions of the spec state machine:
pending to processing, processing to indexed, processing to failed. -/
def allowedTransition : DocStatus → DocStatus → Bool
  | DocStatus.pending, DocStatus.processing => true
  | DocStatus.processing, DocStatus.indexed => true
  | DocStatus.processing, DocStatus.failed => true
  | _, _ => false

/-- Modelled from the spec: the status trace of one ingestion run: the
Document is created pending, set to processing before any work begins, and
ends in the final status of the run. -/
def statusTrace (docId : Nat)
    (extractResult : Except IngestError (List PositionedBlock))
    (maxChars overlapChars : Nat)
    (embed : List (List Char) → Except IngestError (List (List Rat)))
    (upsertFailAt : Option Nat) (st : PipelineState) : List DocStatus :=
  [DocStatus.pending, DocStatus.processing,
    (runIngestion docId extractResult maxChars overlapChars embed upsertFailAt st).status]

/-- C7: the DocStatus type has exactly the four lifecycle statuses of the
spec, and every consecutive pair of statuses produced by an ingestion run is
one of the allowed transitions pending to processing, processing to indexed,
processing to failed; no other transition occurs. -/
theorem ingestion_transitions_allowed (docId : Nat)
    (extractResult : Except IngestError (List PositionedBlock))
    (maxChars overlapChars : Nat)
    (embed : List (List Char) → Except IngestError (List (List Rat)))
    (upsertFailAt : Option Nat) (st : PipelineState) :
    List.Chain' (fun a b => allowedTransition a b = true)
      (statusTrace docId extractResult maxChars overlapChars embed upsertFailAt st) := by
  rw [statusTrace]
  rcases runIngestion_status_cases docId extractResult maxChars overlapChars embed
    upsertFailAt st with h | h <;> rw [h] <;>
    exact List.Chain'.cons (by rfl) (List.Chain'.cons (by rfl) (List.chain'_singleton _))

/-- Modelled from the spec: applying one completed re-ingestion job of a
document to the index: the prior chunk entries of the document are deleted,
then the chunk set of the job is written. -/
def runJob (docId : Nat) (chunks : List Chunk) (idx : List ChunkRecord) :
    List ChunkRecord :=
  deleteDoc docId idx ++ chunkRecords docId chunks

/-- Modelled from the spec: the Orchestrator guards each document with a
per-document lock, or refuses to start a job while one is in flight, so two
concurrent re-ingestion requests for the same document settle in one of
these serialized outcomes; delete and upsert calls of distinct jobs never
interleave. -/
inductive JobSchedule where
  | firstThenSecond
  | secondThenFirst
  | firstOnlySecondRefused
  | secondOnlyFirstRefused
deriving DecidableEq

/-- Modelled from the spec: the final index after two concurrent
re-ingestion requests of the same unchanged document settle under the
serialization guard. -/
def settleTwo (docId : Nat) (chunks : List Chunk) (sched : JobSchedule)
    (idx : List ChunkRecord) : List ChunkRecord :=
  match sched with
  | JobSchedule.firstThenSecond => runJob docId chunks (runJob docId chunks idx)
  | JobSchedule.secondThenFirst => runJob docId chunks (runJob docId chunks idx)
  | JobSchedule.firstOnlySecondRefused => runJob docId chunks idx
  | JobSchedule.secondOnlyFirstRefused => runJob docId chunks idx

theorem runJob_entries (d : Nat) (cs : List Chunk) (idx : List ChunkRecord) :
    entriesFor d (runJob d cs idx) = chunkRecords d cs := by
  rw [runJob, entriesFor, List.filter_append, ← entriesFor, ← entriesFor,
    entriesFor_deleteDoc, entriesFor_chunkRecords, List.nil_append]

theorem runJob_other_docs (d : Nat) (cs : List Chunk) (idx : List ChunkRecord) :
    deleteDoc d (runJob d cs idx) = deleteDoc d idx := by
  have hidem : deleteDoc d (deleteDoc d idx) = deleteDoc d idx := by
    rw [deleteDoc, deleteDoc, List.filter_filter]
    apply List.filter_congr
    intro c hc
    simp
  rw [runJob, deleteDoc, List.filter_append, ← deleteDoc, ← deleteDoc,
    deleteDoc_chunkRecords, List.append_nil, hidem]

/-- C9: under the per-document serialization guard of the spec, any settling
of two concurrent re-ingestion requests of the same document leaves exactly
one completed chunk set for the document, with the entries of every other
document untouched. -/
theorem concurrent_reingestion_single_chunk_set (docId : Nat) (chunks : List Chunk)
    (sched : JobSchedule) (idx : List ChunkRecord) :
    entriesFor docId (settleTwo docId chunks sched idx) = chunkRecords docId chunks ∧
    deleteDoc docId (settleTwo docId chunks sched idx) = deleteDoc docId idx := by
  rcases sched
  · exact ⟨runJob_entries _ _ _, by rw [settleTwo, runJob_other_docs, runJob_other_docs]⟩
  · exact ⟨runJob_entries _ _ _, by rw [settleTwo, runJob_other_docs, runJob_other_docs]⟩
  · exact ⟨runJob_entries _ _ _, runJob_other_docs _ _ _⟩
  · exact ⟨runJob_entries _ _ _, runJob_other_docs _ _ _⟩

/-- Modelled from the spec: the typed failures of the synchronous question
answering path. -/
inductive QAError where
  | modelMismatch
  | generationUnavailable
  | timeout
  | rateLimited
deriving DecidableEq

/-- Modelled from the spec: a complete answer: the answer text together with
the citations resolved from its markers. -/
structure Answer where
  answer_text : List Char
  citations : List Citation
deriving DecidableEq

/-- Modelled from the spec: the synchronous retrieval and answer composition
path (its backend source is not among the available files): retrieval, one
generation call, then citation linking; an error of either external stage
propagates to the caller unchanged, and an answer is only ever returned
complete, with its citations resolved by link. -/
def answerQuestion
    (retrieveResult : Except QAError (List EvidenceItem))
    (generate : List EvidenceItem → Except QAError (List Char))
    (parseMarkers : List Char → List Nat) : Except QAError Answer :=
  match retrieveResult with
  | Except.error e => Except.error e
  | Except.ok evidence =>
    match generate evidence with
    | Except.error e => Except.error e
    | Except.ok text => Except.ok (Answer.mk text (link (parseMarkers text) evidence))

/-- A chat message of the ChatInterface component: id, question, answer text
and citations. -/
structure Message where
  id : Nat
  question : List Char
  answer : List Char
  citations : List Citation
deriving DecidableEq

/-- From handleSubmit in ChatInterface: the optimistic user message is
appended to the message list before the request is sent. -/
def addOptimistic (prev : List Message) (userMsg : Message) : List Message :=
  prev ++ [userMsg]

/-- From handleSubmit in ChatInterface, success path: the message at the last
index is replaced by the server response when its id still equals the
optimistic message id. -/
def replaceLastIfSame (msgs : List Message) (optimisticId : Nat) (response : Message) :
    List Message :=
  match msgs.getLast? with
  | none => msgs
  | some m => if m.id = optimisticId then msgs.dropLast ++ [response] else msgs

/-- From handleSubmit in ChatInterface: the state updates of the success
path. -/
def handleSubmitSuccess (prev : List Message) (userMsg response : Message) :
    List Message :=
  replaceLastIfSame (addOptimistic prev userMsg) userMsg.id response

/-- From handleSubmit in ChatInterface, error path: every message carrying
the optimistic id is filtered out of the list. -/
def handleSubmitFailure (prev : List Message) (userMsg : Message) : List Message :=
  (addOptimistic prev userMsg).filter (fun m => m.id != userMsg.id)

/-- C8: question answering is atomic for the caller: the result is either an
explicit typed failure or a complete answer with citations resolved by link;
retrieval and generation errors propagate unchanged; on failure the
displayed message list returns to its previous value (the optimistically
added message, whose id is fresh, is removed), and on success the optimistic
message is replaced by the complete response. -/
theorem qa_failure_atomic
    (retrieveResult : Except QAError (List EvidenceItem))
    (generate : List EvidenceItem → Except QAError (List Char))
    (parseMarkers : List Char → List Nat)
    (prev : List Message) (userMsg response : Message)
    (hfresh : ∀ m ∈ prev, m.id ≠ userMsg.id) :
    ((∃ e, answerQuestion retrieveResult generate parseMarkers = Except.error e) ∨
      (∃ evidence text, retrieveResult = Except.ok evidence ∧
        generate evidence = Except.ok text ∧
        answerQuestion retrieveResult generate parseMarkers =
          Except.ok (Answer.mk text (link (parseMarkers text) evidence)))) ∧
    (∀ e, retrieveResult = Except.error e →
      answerQuestion retrieveResult generate parseMarkers = Except.error e) ∧
    (∀ evidence e, retrieveResult = Except.ok evidence →
      generate evidence = Except.error e →
      answerQuestion retrieveResult generate parseMarkers = Except.error e) ∧
    handleSubmitFailure prev userMsg = prev ∧
    handleSubmitSuccess prev userMsg response = prev ++ [response] := by
  refine ⟨?_, ?_, ?_, ?_, ?_⟩
  · rcases hr : retrieveResult with e | evidence
    · exact Or.inl ⟨e, by rw [answerQuestion]⟩
    · rcases hg : generate evidence with e | text
      · exact Or.inl ⟨e, by rw [answerQuestion, hg]⟩
      · exact Or.inr ⟨evidence, text, rfl, hg, by rw [answerQuestion, hg]⟩
  · intro e he
    rw [he, answerQuestion]
  · intro evidence e he hg
    rw [he, answerQuestion, hg]
  · rw [handleSubmitFailure, addOptimistic, List.filter_append]
    have h1 : prev.filter (fun m => m.id != userMsg.id) = prev := by
      apply List.filter_eq_self.mpr
      intro m hm
      simpa using hfresh m hm
    have h2 : [userMsg].filter (fun m => m.id != userMsg.id) = [] := by
      simp
    rw [h1, h2, List.append_nil]
  · simp [handleSubmitSuccess, addOptimistic, replaceLastIfSame, List.getLast?_concat,
      List.dropLast_concat]

/-- Concrete stage inputs used by the C8 witness. -/
def demoRetrieve : Except QAError (List EvidenceItem) := Except.ok []

def demoGenerate : List EvidenceItem → Except QAError (List Char) :=
  fun _ => Except.error QAError.generationUnavailable

def demoParse : List Char → List Nat := fun _ => []

def demoUserMsg : Message := Message.mk 1 [] [] []

def demoResponse : Message := Message.mk 2 [] [] []

/-- Witness for C8 at a concrete failing generation call on an empty chat. -/
theorem qa_failure_atomic_witness :
    ((∃ e, answerQuestion demoRetrieve demoGenerate demoParse = Except.error e) ∨
      (∃ evidence text, demoRetrieve = Except.ok evidence ∧
        demoGenerate evidence = Except.ok text ∧
        answerQuestion demoRetrieve demoGenerate demoParse =
          Except.ok (Answer.mk text (link (demoParse text) evidence)))) ∧
    (∀ e, demoRetrieve = Except.error e →
      answerQuestion demoRetrieve demoGenerate demoParse = Except.error e) ∧
    (∀ evidence e, demoRetrieve = Except.ok evidence →
      demoGenerate evidence = Except.error e →
      answerQuestion demoRetrieve demoGenerate demoParse = Except.error e) ∧
    handleSubmitFailure [] demoUserMsg = [] ∧
    handleSubmitSuccess [] demoUserMsg demoResponse = [] ++ [demoResponse] :=
  qa_failure_atomic demoRetrieve demoGenerate demoParse [] demoUserMsg demoResponse
    (by intro m hm; simp at hm)

/-- The authenticated user record of the auth store (authStore.ts). -/
structure AuthUser where
  id : Nat
  email : List Char
  username : List Char
  full_name : Option (List Char)
deriving DecidableEq

/-- The zustand auth store state (authStore.ts): accessToken, user and the
isAuthenticated flag. -/
structure AuthState where
  accessToken : Option (List Char)
  user : Option AuthUser
  isAuthenticated : Bool
deriving DecidableEq

/-- The initial store state of authStore.ts: no token, no user, not
authenticated. -/
def initialAuthState : AuthState :=
  AuthState.mk none none false

/-- setAuth of authStore.ts: stores the token and user and sets
isAuthenticated true. -/
def setAuth (token : List Char) (u : AuthUser) (s : AuthState) : AuthState :=
  AuthState.mk (some token) (some u) true

/-- clearAuth of authStore.ts: removes the token and user and sets
isAuthenticated false. -/
def clearAuth (s : AuthState) : AuthState :=
  AuthState.mk none none false

/-- The localStorage re-initialization on load of authStore.ts: when a
truthy (present, non-empty) token is stored, accessToken and isAuthenticated
are set, leaving the user field unchanged; otherwise nothing happens. -/
def initFromStorage (stored : Option (List Char)) (s : AuthState) : AuthState :=
  match stored with
  | none => s
  | some token =>
    if token = [] then s
    else AuthState.mk (some token) s.user true

/-- The auth store states reachable from the initial state through the store
operations. -/
inductive AuthReachable : AuthState → Prop where
  | init : AuthReachable initialAuthState
  | set (token : List Char) (u : AuthUser) (s : AuthState) :
      AuthReachable s → AuthReachable (setAuth token u s)
  | clear (s : AuthState) : AuthReachable s → AuthReachable (clearAuth s)
  | storage (stored : Option (List Char)) (s : AuthState) :
      AuthReachable s → AuthReachable (initFromStorage stored s)

/-- The auth store invariant: isAuthenticated holds exactly when a token is
stored. -/
def authInvariant (s : AuthState) : Prop :=
  s.isAuthenticated = true ↔ s.accessToken ≠ none

/-- C10: the invariant that isAuthenticated is true exactly when accessToken
is non-null holds in the initial auth store state and is preserved by
setAuth, clearAuth and the localStorage re-initialization, so it holds in
every reachable store state. -/
theorem auth_isAuthenticated_iff_token (s : AuthState) (h : AuthReachable s) :
    authInvariant s := by
  induction h with
  | init => simp [authInvariant, initialAuthState]
  | set token u s hs ih => simp [authInvariant, setAuth]
  | clear s hs ih => simp [authInvariant, clearAuth]
  | storage stored s hs ih =>
    rcases stored with _ | token
    · exact ih
    · rw [initFromStorage]
      by_cases ht : token = []
      · rw [if_pos ht]
        exact ih
      · rw [if_neg ht]
        simp [authInvariant]

/-- Witness for C10 at a concrete reachable state. -/
theorem auth_isAuthenticated_iff_token_witness :
    authInvariant (setAuth ['t'] (AuthUser.mk 1 [] [] none) initialAuthState) :=
  auth_isAuthenticated_iff_token _
    (AuthReachable.set (['t']) (AuthUser.mk 1 [] [] none) initialAuthState
      AuthReachable.init)
